import Mathlib

/-!
Verification of the flux numeric core (`include/flux/core/numeric.hpp`).

A signed integral type `T` of bit width `w` is embedded as the integers in
`[minT w, maxT w] = [-2^(w-1), 2^(w-1) - 1]`.  Its unsigned counterpart
`std::make_unsigned_t<T>` is embedded as the integers in `[0, 2^w - 1]`;
unsigned arithmetic reduces modulo `2^w`.  The conversions performed by
`static_cast` in the source are embedded explicitly: `ucast` is the
signed-to-unsigned conversion (value modulo `2^w`) and `scast` is the
unsigned-to-signed conversion (the unique representable value congruent
modulo `2^w`, as C++20 defines it).

C++ `/` and `%` on signed operands truncate toward zero, so they are
embedded as `Int.tdiv` and `Int.tmod`.

The checked operations model the run-time branch of the source (the
`std::is_constant_evaluated()` false path); a call of `runtime_error(msg)`
is embedded as the value `Except.error msg`, a normal return of `v` as
`Except.ok v`.
-/

namespace Flux

instance {ε α : Type} [DecidableEq ε] [DecidableEq α] : DecidableEq (Except ε α) :=
  fun x y =>
  match x, y with
  | .error a, .error b =>
    if h : a = b then .isTrue (by rw [h]) else .isFalse (by simp [h])
  | .ok a, .ok b =>
    if h : a = b then .isTrue (by rw [h]) else .isFalse (by simp [h])
  | .error _, .ok _ => .isFalse (by simp)
  | .ok _, .error _ => .isFalse (by simp)

/-- Value of `min(T)` for a signed type of bit width `w`. -/
def minT (w : Nat) : Int := -(2 ^ (w - 1))

/-- Value of `max(T)` for a signed type of bit width `w`. -/
def maxT (w : Nat) : Int := 2 ^ (w - 1) - 1

/-- Membership of an integer in the value range of a signed type of width `w`. -/
def inRange (w : Nat) (a : Int) : Prop := minT w ≤ a ∧ a ≤ maxT w

instance (w : Nat) (a : Int) : Decidable (inRange w a) :=
  inferInstanceAs (Decidable (minT w ≤ a ∧ a ≤ maxT w))

/-- Embedding of `static_cast<U>(a)` for `U = std::make_unsigned_t<T>`: the value of `a`
reduced modulo `2^w`. -/
def ucast (w : Nat) (a : Int) : Int := a % (2 ^ w)

/-- Embedding of `static_cast<T>(u)` for an unsigned value `u` in `[0, 2^w)`: the unique
value representable in `T` that is congruent to `u` modulo `2^w`. -/
def scast (w : Nat) (u : Int) : Int := if u < 2 ^ (w - 1) then u else u - 2 ^ w

/-- Addition in the unsigned counterpart type: modular. -/
def uadd (w : Nat) (u v : Int) : Int := (u + v) % (2 ^ w)

/-- Subtraction in the unsigned counterpart type: modular. -/
def usub (w : Nat) (u v : Int) : Int := (u - v) % (2 ^ w)

/-- Multiplication in the unsigned counterpart type: modular. -/
def umul (w : Nat) (u v : Int) : Int := (u * v) % (2 ^ w)

/-- Embedding of `flux::num::wrapping_add`: cast both operands to unsigned, add there,
cast the result back to signed. -/
def wrapping_add (w : Nat) (lhs rhs : Int) : Int :=
  scast w (uadd w (ucast w lhs) (ucast w rhs))

/-- Embedding of `flux::num::wrapping_sub`: cast both operands to unsigned, subtract
there, cast the result back to signed. -/
def wrapping_sub (w : Nat) (lhs rhs : Int) : Int :=
  scast w (usub w (ucast w lhs) (ucast w rhs))

/-- Embedding of `flux::num::wrapping_mul`: cast both operands to unsigned, multiply
there, cast the result back to signed. -/
def wrapping_mul (w : Nat) (lhs rhs : Int) : Int :=
  scast w (umul w (ucast w lhs) (ucast w rhs))

/-- Embedding of `flux::num::overflow_result<T>`. -/
structure overflow_result where
  value : Int
  overflowed : Bool

/-- Embedding of `flux::num::overflowing_add`, portable sign-analysis branch:
`value = wrapping_add(lhs, rhs)`;
`overflowed = ((lhs < 0) == (rhs < 0)) && ((lhs < 0) != (value < 0))`. -/
def overflowing_add (w : Nat) (lhs rhs : Int) : overflow_result :=
  let value := wrapping_add w lhs rhs
  { value := value
    overflowed := (decide (lhs < 0) == decide (rhs < 0)) &&
                  (decide (lhs < 0) != decide (value < 0)) }

/-- Embedding of `flux::num::overflowing_sub`, portable sign-analysis branch:
`value = wrapping_sub(lhs, rhs)`;
`overflowed = (lhs >= 0 && rhs < 0 && value < 0) || (lhs < 0 && rhs > 0 && value > 0)`. -/
def overflowing_sub (w : Nat) (lhs rhs : Int) : overflow_result :=
  let value := wrapping_sub w lhs rhs
  { value := value
    overflowed := (decide (0 ≤ lhs) && decide (rhs < 0) && decide (value < 0)) ||
                  (decide (lhs < 0) && decide (0 < rhs) && decide (0 < value)) }

/-- Embedding of `flux::num::overflowing_mul`, portable fallback branch:
`value = wrapping_mul(lhs, rhs)`;
`overflowed = lhs != 0 && value / lhs != rhs` (C++ signed `/` truncates). -/
def overflowing_mul (w : Nat) (lhs rhs : Int) : overflow_result :=
  let value := wrapping_mul w lhs rhs
  { value := value
    overflowed := decide (lhs ≠ 0) && decide (Int.tdiv value lhs ≠ rhs) }

/-- Embedding of `flux::overflow_policy`: the compile-time overflow configuration. -/
inductive overflow_policy where
  | ignore
  | wrap
  | fail

/-- Embedding of `flux::divide_by_zero_policy`: the compile-time division configuration. -/
inductive divide_by_zero_policy where
  | ignore
  | fail

/-- Embedding of `flux::num::checked_add`, run-time branch, dispatched on the overflow
policy.  Under `ignore` the source computes raw `lhs + rhs` (undefined
behaviour on overflow, embedded as the unbounded sum). -/
def checked_add (pol : overflow_policy) (w : Nat) (lhs rhs : Int) : Except String Int :=
  match pol with
  | .ignore => .ok (lhs + rhs)
  | .wrap => .ok (wrapping_add w lhs rhs)
  | .fail =>
    let res := overflowing_add w lhs rhs
    if res.overflowed then .error ("signed overflow in addition") else .ok res.value

/-- Embedding of `flux::num::checked_sub`, run-time branch. -/
def checked_sub (pol : overflow_policy) (w : Nat) (lhs rhs : Int) : Except String Int :=
  match pol with
  | .ignore => .ok (lhs - rhs)
  | .wrap => .ok (wrapping_sub w lhs rhs)
  | .fail =>
    let res := overflowing_sub w lhs rhs
    if res.overflowed then .error ("signed overflow in subtraction") else .ok res.value

/-- Embedding of `flux::num::checked_mul`, run-time branch. -/
def checked_mul (pol : overflow_policy) (w : Nat) (lhs rhs : Int) : Except String Int :=
  match pol with
  | .ignore => .ok (lhs * rhs)
  | .wrap => .ok (wrapping_mul w lhs rhs)
  | .fail =>
    let res := overflowing_mul w lhs rhs
    if res.overflowed then .error ("signed overflow in multiplication") else .ok res.value

/-- The loop of `flux::num::checked_pow`: with `n` iterations left and
accumulator `res`, perform `res = checked_mul(res, base)` and continue; a
`runtime_error` raised by `checked_mul` aborts the loop. -/
def checked_pow_go (pol : overflow_policy) (w : Nat) (base : Int) :
    Nat → Int → Except String Int
  | 0, res => .ok res
  | Nat.succ n, res =>
    match checked_mul pol w res base with
    | .ok r => checked_pow_go pol w base n r
    | .error e => .error e

/-- Embedding of `flux::num::checked_pow`, run-time branch: `res = 1`, then `exponent`
iterations of `res = checked_mul(res, base)`. -/
def checked_pow (pol : overflow_policy) (w : Nat) (base : Int) (exponent : Nat) :
    Except String Int :=
  checked_pow_go pol w base exponent 1

/-- Embedding of `flux::num::checked_div`, run-time branch: under the `fail` policy the
single guard is `rhs == 0`; otherwise the truncating quotient is returned. -/
def checked_div (pol : divide_by_zero_policy) (lhs rhs : Int) : Except String Int :=
  match pol with
  | .ignore => .ok (Int.tdiv lhs rhs)
  | .fail =>
    if rhs = 0 then .error ("divide by zero") else .ok (Int.tdiv lhs rhs)

/-- Embedding of `flux::num::checked_mod`, run-time branch: under the `fail` policy the
single guard is `rhs == 0`; otherwise the truncating remainder is returned. -/
def checked_mod (pol : divide_by_zero_policy) (lhs rhs : Int) : Except String Int :=
  match pol with
  | .ignore => .ok (Int.tmod lhs rhs)
  | .fail =>
    if rhs = 0 then .error ("divide by zero") else .ok (Int.tmod lhs rhs)

/-- Value of `max(T)` for the unsigned type of bit width `w`. -/
def umaxT (w : Nat) : Int := 2 ^ w - 1

/-- Value of `min(T)` for the unsigned type of bit width `w`. -/
def uminT (_w : Nat) : Int := 0

/-- Modelled from the spec: the unsigned instantiation of `checked_sub`
(exercised through `flux::num::sub` in `test_default_ops.cpp`) is absent
from the sources, which constrain `checked_sub` to signed operands.  Per
the spec, the overflow flag is true iff the true mathematical result lies
outside `[min(T), max(T)] = [0, 2^w - 1]` — for subtraction of unsigned
operands, iff `lhs < rhs` — the value is the wraparound modulo `2^w`, and
under the `fail` policy an overflow signals an unrecoverable failure while
otherwise the value is returned. -/
def checked_sub_u (w : Nat) (lhs rhs : Int) : Except String Int :=
  if lhs < rhs then .error ("overflow in subtraction")
  else .ok ((lhs - rhs) % (2 ^ w))

/-- The unique representative of `x` modulo `2^w` lying in
`[minT w, maxT w]`; mathematical reference value for the wrapping layer. -/
def wrap (w : Nat) (x : Int) : Int := (x + 2 ^ (w - 1)) % (2 ^ w) - 2 ^ (w - 1)

lemma two_pow_w_eq (w : Nat) (hw : 0 < w) : (2 : Int) ^ w = 2 ^ (w - 1) * 2 := by
  conv_lhs => rw [← Nat.succ_pred_eq_of_pos hw]
  rw [pow_succ, Nat.pred_eq_sub_one]

lemma half_pow_pos (w : Nat) : (0 : Int) < 2 ^ (w - 1) := pow_pos (by norm_num) _

lemma two_pow_pos (w : Nat) : (0 : Int) < 2 ^ w := pow_pos (by norm_num) _

/-- Two representable values congruent modulo `2^w` are equal. -/
lemma inRange_eq_of_emod_eq {w : Nat} (hw : 0 < w) {x y : Int}
    (hx : inRange w x) (hy : inRange w y)
    (h : x % (2 ^ w) = y % (2 ^ w)) : x = y := by
  have hn := two_pow_w_eq w hw
  have hh := half_pow_pos w
  have hdvd : (2 : Int) ^ w ∣ x - y := by
    apply Int.dvd_of_emod_eq_zero
    rw [Int.sub_emod, h, sub_self, Int.zero_emod]
  have habs : |x - y| < 2 ^ w := by
    rcases hx with ⟨hx1, hx2⟩
    rcases hy with ⟨hy1, hy2⟩
    unfold minT maxT at *
    rw [abs_lt]
    constructor <;> omega
  have := Int.eq_zero_of_abs_lt_dvd hdvd habs
  omega

lemma wrap_emod (w : Nat) (x : Int) : wrap w x % (2 ^ w) = x % (2 ^ w) := by
  unfold wrap
  rw [Int.sub_emod, Int.emod_emod, ← Int.sub_emod, add_sub_cancel_right]

lemma wrap_inRange (w : Nat) (hw : 0 < w) (x : Int) : inRange w (wrap w x) := by
  have hn := two_pow_w_eq w hw
  have hh := half_pow_pos w
  have h0 : 0 ≤ (x + 2 ^ (w - 1)) % (2 ^ w) :=
    Int.emod_nonneg _ (by positivity)
  have h1 : (x + 2 ^ (w - 1)) % (2 ^ w) < 2 ^ w :=
    Int.emod_lt_of_pos _ (two_pow_pos w)
  unfold wrap inRange minT maxT
  omega

lemma wrap_eq_self {w : Nat} (hw : 0 < w) {x : Int} (hx : inRange w x) :
    wrap w x = x :=
  inRange_eq_of_emod_eq hw (wrap_inRange w hw x) hx (wrap_emod w x)

/-- Applying `scast` to a reduced value agrees with the mathematical wrap. -/
lemma scast_emod (w : Nat) (hw : 0 < w) (x : Int) :
    scast w (x % (2 ^ w)) = wrap w x := by
  have hn := two_pow_w_eq w hw
  have hh := half_pow_pos w
  have h0 : 0 ≤ x % (2 ^ w) := Int.emod_nonneg _ (by positivity)
  have h1 : x % (2 ^ w) < 2 ^ w := Int.emod_lt_of_pos _ (two_pow_pos w)
  have hcong : scast w (x % (2 ^ w)) % (2 ^ w) = x % (2 ^ w) := by
    unfold scast
    split
    · exact Int.emod_emod x _
    · have : x % 2 ^ w - 2 ^ w = x % 2 ^ w + 2 ^ w * (-1) := by ring
      rw [this, Int.add_mul_emod_self_left, Int.emod_emod]
  refine inRange_eq_of_emod_eq hw ?_ (wrap_inRange w hw x)
    (by rw [hcong, wrap_emod])
  unfold scast inRange minT maxT
  split <;> omega

lemma wrapping_add_eq_wrap (w : Nat) (hw : 0 < w) (a b : Int) :
    wrapping_add w a b = wrap w (a + b) := by
  unfold wrapping_add uadd ucast
  rw [← Int.add_emod, scast_emod w hw]

lemma wrapping_sub_eq_wrap (w : Nat) (hw : 0 < w) (a b : Int) :
    wrapping_sub w a b = wrap w (a - b) := by
  unfold wrapping_sub usub ucast
  rw [← Int.sub_emod, scast_emod w hw]

lemma wrapping_mul_eq_wrap (w : Nat) (hw : 0 < w) (a b : Int) :
    wrapping_mul w a b = wrap w (a * b) := by
  unfold wrapping_mul umul ucast
  rw [← Int.mul_emod, scast_emod w hw]

/-- To compute a wrap, exhibit a representable value congruent to the input. -/
lemma wrap_eq_of {w : Nat} (hw : 0 < w) {x y : Int} (hy : inRange w y)
    (h : x % (2 ^ w) = y % (2 ^ w)) : wrap w x = y :=
  inRange_eq_of_emod_eq hw (wrap_inRange w hw x) hy ((wrap_emod w x).trans h)

/-- One monadic step of the `checked_pow` loop. -/
def pow_step (pol : overflow_policy) (w : Nat) (base : Int)
    (acc : Except String Int) : Except String Int :=
  Except.bind acc (fun r => checked_mul pol w r base)

lemma pow_step_iterate_error (pol : overflow_policy) (w : Nat) (base : Int)
    (n : Nat) (e : String) :
    (pow_step pol w base)^[n] (Except.error e) = Except.error e := by
  induction n with
  | zero => rfl
  | succ n ih => rw [Function.iterate_succ_apply]; exact ih

lemma checked_pow_go_eq_iterate (pol : overflow_policy) (w : Nat) (base : Int) :
    ∀ (n : Nat) (res : Int),
      checked_pow_go pol w base n res =
        (pow_step pol w base)^[n] (Except.ok res) := by
  intro n
  induction n with
  | zero => intro res; rfl
  | succ n ih =>
    intro res
    rw [Function.iterate_succ_apply]
    have hstep : pow_step pol w base (Except.ok res) = checked_mul pol w res base := rfl
    rw [hstep]
    unfold checked_pow_go
    rcases hm : checked_mul pol w res base with e | r
    · rw [pow_step_iterate_error]
    · exact ih r

/-- Claim C6: under the wrap overflow policy, at run time `checked_add(a, b)`
equals `wrapping_add(a, b)` for every signed integral type and all operands,
and never fails. -/
theorem claim6_checked_add_wrap_policy (w : Nat) (a b : Int) :
    checked_add .wrap w a b = Except.ok (wrapping_add w a b) := rfl

/-- Claim C9: under the fail overflow policy, whenever
`overflowing_add(a, b).overflowed` is false, `checked_add(a, b)` at run time
returns `overflowing_add(a, b).value` without signaling a failure. -/
theorem claim9_checked_add_roundtrip (w : Nat) (a b : Int)
    (h : (overflowing_add w a b).overflowed = false) :
    checked_add .fail w a b = Except.ok ((overflowing_add w a b).value) := by
  unfold checked_add
  simp [h]

theorem claim9_witness :
    (overflowing_add 8 1 2).overflowed = false ∧
    checked_add .fail 8 1 2 = Except.ok ((overflowing_add 8 1 2).value) :=
  ⟨by decide, claim9_checked_add_roundtrip 8 1 2 (by decide)⟩

/-- Claim C3: under the fail divide-by-zero policy, at run time
`checked_div(a, b)` and `checked_mod(a, b)` signal the unrecoverable failure
"divide by zero" if and only if `b = 0`; the signed case `min(T) / -1` is
not separately guarded and returns through the normal path. -/
theorem claim3_checked_div_mod_fail_iff (w : Nat) (a b : Int) :
    (checked_div .fail a b = Except.error ("divide by zero") ↔ b = 0) ∧
    (checked_mod .fail a b = Except.error ("divide by zero") ↔ b = 0) ∧
    checked_div .fail (minT w) (-1) = Except.ok (Int.tdiv (minT w) (-1)) ∧
    checked_mod .fail (minT w) (-1) = Except.ok (Int.tmod (minT w) (-1)) := by
  refine ⟨?_, ?_, ?_, ?_⟩
  · by_cases hb : b = 0 <;> simp [checked_div, hb]
  · by_cases hb : b = 0 <;> simp [checked_mod, hb]
  · simp [checked_div]
  · simp [checked_mod]

/-- Claim C7: `checked_pow(base, exponent)` equals `exponent` iterated
applications of `checked_mul` starting from 1; in particular
`checked_pow(base, 0) = 1` for every base, and a failing intermediate
multiplication is exactly what makes `checked_pow` fail. -/
theorem claim7_checked_pow_iterated_mul (pol : overflow_policy) (w : Nat)
    (base : Int) (e : Nat) :
    checked_pow pol w base 0 = Except.ok 1 ∧
    checked_pow pol w base e = (pow_step pol w base)^[e] (Except.ok 1) := by
  exact ⟨rfl, checked_pow_go_eq_iterate pol w base e 1⟩

/-- Claim C4: `wrapping_add(a, b)` is the unique representable value
congruent to `a + b` modulo `2^bitwidth(T)`, and never fails (it is a total
function of its operands). -/
theorem claim4_wrapping_add_modular (w : Nat) (a b : Int) (hw : 0 < w) :
    inRange w (wrapping_add w a b) ∧
    wrapping_add w a b % (2 ^ w) = (a + b) % (2 ^ w) ∧
    ∀ c : Int, inRange w c → c % (2 ^ w) = (a + b) % (2 ^ w) →
      c = wrapping_add w a b := by
  rw [wrapping_add_eq_wrap w hw]
  refine ⟨wrap_inRange w hw _, wrap_emod w _, ?_⟩
  intro c hc hmod
  exact inRange_eq_of_emod_eq hw hc (wrap_inRange w hw _)
    (hmod.trans (wrap_emod w _).symm)

theorem claim4_witness :
    0 < 8 ∧
    (inRange 8 (wrapping_add 8 100 100) ∧
     wrapping_add 8 100 100 % (2 ^ 8) = (100 + 100) % (2 ^ 8) ∧
     ∀ c : Int, inRange 8 c → c % (2 ^ 8) = (100 + 100) % (2 ^ 8) →
       c = wrapping_add 8 100 100) :=
  ⟨by decide, claim4_wrapping_add_modular 8 100 100 (by decide)⟩

/-- Claim C5: under the fail overflow policy, at run time
`checked_add(max(T), 1)` signals "signed overflow in addition", while
`checked_add(min(T), max(T))` succeeds and returns `-1`. -/
theorem claim5_checked_add_fail_extremes (w : Nat) (hw : 0 < w) :
    checked_add .fail w (maxT w) 1 = Except.error ("signed overflow in addition") ∧
    checked_add .fail w (minT w) (maxT w) = Except.ok (-1) := by
  have hn := two_pow_w_eq w hw
  have hh := half_pow_pos w
  have hmax0 : ¬ maxT w < 0 := by
    unfold maxT
    generalize (2 : Int) ^ (w - 1) = h at hh ⊢
    omega
  have hmin0 : minT w < 0 := by
    unfold minT
    generalize (2 : Int) ^ (w - 1) = h at hh ⊢
    omega
  have hv1 : wrapping_add w (maxT w) 1 = minT w := by
    rw [wrapping_add_eq_wrap w hw]
    refine wrap_eq_of hw ⟨le_refl _, le_of_lt (lt_of_lt_of_le hmin0 (by
      unfold maxT
      generalize (2 : Int) ^ (w - 1) = h at hh ⊢
      omega))⟩ ?_
    have hrw : minT w = maxT w + 1 + 2 ^ w * (-1) := by
      unfold minT maxT
      generalize (2 : Int) ^ (w - 1) = h at hh hn ⊢
      generalize (2 : Int) ^ w = n at hn ⊢
      omega
    rw [hrw, Int.add_mul_emod_self_left]
  have hv2 : wrapping_add w (minT w) (maxT w) = -1 := by
    rw [wrapping_add_eq_wrap w hw]
    have hrw : minT w + maxT w = -1 := by
      unfold minT maxT
      ring
    rw [hrw]
    refine wrap_eq_self hw ⟨?_, ?_⟩
    · unfold minT
      generalize (2 : Int) ^ (w - 1) = h at hh ⊢
      omega
    · unfold maxT
      generalize (2 : Int) ^ (w - 1) = h at hh ⊢
      omega
  constructor
  · have hov : (overflowing_add w (maxT w) 1).overflowed = true := by
      unfold overflowing_add
      simp only [hv1]
      have h1 : ¬ ((1 : Int) < 0) := by omega
      simp [hmax0, h1, hmin0]
    simp [checked_add, hov]
  · have hov : (overflowing_add w (minT w) (maxT w)).overflowed = false := by
      unfold overflowing_add
      simp [hmin0, hmax0]
    have hrun : checked_add .fail w (minT w) (maxT w) =
        Except.ok ((overflowing_add w (minT w) (maxT w)).value) := by
      simp [checked_add, hov]
    rw [hrun]
    show Except.ok (wrapping_add w (minT w) (maxT w)) = _
    rw [hv2]

theorem claim5_witness :
    0 < 8 ∧
    (checked_add .fail 8 (maxT 8) 1 =
       Except.error ("signed overflow in addition") ∧
     checked_add .fail 8 (minT 8) (maxT 8) = Except.ok (-1)) :=
  ⟨by decide, claim5_checked_add_fail_extremes 8 (by decide)⟩

/-- Claim C8: under the fail overflow policy, `checked_sub(max(T), min(T))`
signals an overflow failure for every signed integral type, but succeeds and
returns `max(T)` for every unsigned integral type (whose minimum is 0). -/
theorem claim8_checked_sub_extremes (w : Nat) (hw : 0 < w) :
    checked_sub .fail w (maxT w) (minT w) =
      Except.error ("signed overflow in subtraction") ∧
    checked_sub_u w (umaxT w) (uminT w) = Except.ok (umaxT w) := by
  have hn := two_pow_w_eq w hw
  have hh := half_pow_pos w
  have hp := two_pow_pos w
  have hmax0 : (0 : Int) ≤ maxT w := by
    unfold maxT
    generalize (2 : Int) ^ (w - 1) = h at hh ⊢
    omega
  have hmin0 : minT w < 0 := by
    unfold minT
    generalize (2 : Int) ^ (w - 1) = h at hh ⊢
    omega
  constructor
  · have hv : wrapping_sub w (maxT w) (minT w) = -1 := by
      rw [wrapping_sub_eq_wrap w hw]
      refine wrap_eq_of hw ⟨?_, ?_⟩ ?_
      · unfold minT
        generalize (2 : Int) ^ (w - 1) = h at hh ⊢
        omega
      · unfold maxT
        generalize (2 : Int) ^ (w - 1) = h at hh ⊢
        omega
      · have hrw : maxT w - minT w = -1 + 2 ^ w * 1 := by
          unfold minT maxT
          generalize (2 : Int) ^ (w - 1) = h at hh hn ⊢
          generalize (2 : Int) ^ w = n at hn ⊢
          omega
        rw [hrw, Int.add_mul_emod_self_left]
    have hov : (overflowing_sub w (maxT w) (minT w)).overflowed = true := by
      unfold overflowing_sub
      simp only [hv]
      have h1 : (-1 : Int) < 0 := by omega
      simp [hmax0, hmin0, h1]
    simp [checked_sub, hov]
  · unfold checked_sub_u umaxT uminT
    have h1 : ¬ ((2 : Int) ^ w - 1 < 0) := by
      generalize (2 : Int) ^ w = n at hp ⊢
      omega
    rw [if_neg h1, sub_zero, Int.emod_eq_of_lt (by omega) (by omega)]

theorem claim8_witness :
    0 < 8 ∧
    (checked_sub .fail 8 (maxT 8) (minT 8) =
       Except.error ("signed overflow in subtraction") ∧
     checked_sub_u 8 (umaxT 8) (uminT 8) = Except.ok (umaxT 8)) :=
  ⟨by decide, claim8_checked_sub_extremes 8 (by decide)⟩

/-- Claim C1: for representable operands, `overflowing_add(a, b).overflowed`
is true iff the unbounded sum `a + b` lies outside `[min(T), max(T)]`, and
`overflowing_add(a, b).value = wrapping_add(a, b)`; proved for the portable
sign-analysis branch, which the embedding models. -/
theorem claim1_overflowing_add_correct (w : Nat) (a b : Int) (hw : 0 < w)
    (ha : inRange w a) (hb : inRange w b) :
    (overflowing_add w a b).value = wrapping_add w a b ∧
    ((overflowing_add w a b).overflowed = true ↔
      a + b < minT w ∨ maxT w < a + b) := by
  refine ⟨rfl, ?_⟩
  unfold overflowing_add
  simp only [Bool.and_eq_true, beq_iff_eq, bne_iff_ne, ne_eq, decide_eq_decide]
  have hn := two_pow_w_eq w hw
  have hh := half_pow_pos w
  unfold inRange minT maxT at ha hb
  by_cases hlo : a + b < minT w
  · have hv : wrapping_add w a b = a + b + 2 ^ w := by
      rw [wrapping_add_eq_wrap w hw]
      refine wrap_eq_of hw ⟨?_, ?_⟩ ?_
      · unfold minT at hlo ⊢
        generalize (2 : Int) ^ (w - 1) = h at hh hn ha hb hlo ⊢
        generalize (2 : Int) ^ w = n at hn ⊢
        omega
      · unfold minT at hlo
        unfold maxT
        generalize (2 : Int) ^ (w - 1) = h at hh hn ha hb hlo ⊢
        generalize (2 : Int) ^ w = n at hn ⊢
        omega
      · have hrw : a + b + 2 ^ w = a + b + 2 ^ w * 1 := by ring
        rw [hrw, Int.add_mul_emod_self_left]
    rw [hv]
    unfold minT at hlo
    unfold minT maxT
    generalize (2 : Int) ^ (w - 1) = h at hh hn ha hb hlo ⊢
    generalize (2 : Int) ^ w = n at hn ⊢
    omega
  · by_cases hhi : maxT w < a + b
    · have hv : wrapping_add w a b = a + b - 2 ^ w := by
        rw [wrapping_add_eq_wrap w hw]
        refine wrap_eq_of hw ⟨?_, ?_⟩ ?_
        · unfold maxT at hhi
          unfold minT
          generalize (2 : Int) ^ (w - 1) = h at hh hn ha hb hhi ⊢
          generalize (2 : Int) ^ w = n at hn ⊢
          omega
        · unfold maxT at hhi ⊢
          generalize (2 : Int) ^ (w - 1) = h at hh hn ha hb hhi ⊢
          generalize (2 : Int) ^ w = n at hn ⊢
          omega
        · have hrw : a + b - 2 ^ w = a + b + 2 ^ w * (-1) := by ring
          rw [hrw, Int.add_mul_emod_self_left]
      rw [hv]
      unfold maxT at hhi
      unfold minT maxT
      generalize (2 : Int) ^ (w - 1) = h at hh hn ha hb hhi ⊢
      generalize (2 : Int) ^ w = n at hn ⊢
      omega
    · have hv : wrapping_add w a b = a + b := by
        rw [wrapping_add_eq_wrap w hw]
        refine wrap_eq_self hw ⟨?_, ?_⟩
        · unfold minT at hlo ⊢
          generalize (2 : Int) ^ (w - 1) = h at hh hn ha hb hlo ⊢
          omega
        · unfold maxT at hhi ⊢
          generalize (2 : Int) ^ (w - 1) = h at hh hn ha hb hhi ⊢
          omega
      rw [hv]
      unfold minT at hlo
      unfold maxT at hhi
      unfold minT maxT
      generalize (2 : Int) ^ (w - 1) = h at hh hn ha hb hlo hhi ⊢
      omega

theorem claim1_witness :
    0 < 8 ∧ inRange 8 100 ∧ inRange 8 100 ∧
    ((overflowing_add 8 100 100).value = wrapping_add 8 100 100 ∧
     ((overflowing_add 8 100 100).overflowed = true ↔
       100 + 100 < minT 8 ∨ maxT 8 < 100 + 100)) :=
  ⟨by decide, by decide, by decide,
   claim1_overflowing_add_correct 8 100 100 (by decide) (by decide) (by decide)⟩

lemma tmod_bound_of_nonneg {v a : Int} (hv : 0 ≤ v) (ha : a ≠ 0) :
    0 ≤ Int.tmod v a ∧ Int.tmod v a < |a| := by
  refine ⟨Int.tmod_nonneg a hv, ?_⟩
  rcases lt_or_gt_of_ne ha with hneg | hpos
  · have h := Int.tmod_lt_of_pos v (b := -a) (by omega)
    rw [Int.tmod_neg] at h
    rw [abs_of_neg hneg]
    exact h
  · rw [abs_of_pos hpos]
    exact Int.tmod_lt_of_pos v hpos

/-- The truncating remainder is smaller than the divisor in absolute value. -/
lemma abs_tmod_lt (v a : Int) (ha : a ≠ 0) : |Int.tmod v a| < |a| := by
  rcases le_or_lt 0 v with hv | hv
  · obtain ⟨h0, h1⟩ := tmod_bound_of_nonneg hv ha
    rw [abs_of_nonneg h0]
    exact h1
  · have hneg : Int.tmod v a = -Int.tmod (-v) a := by
      rw [Int.tmod_def, Int.tmod_def, Int.neg_tdiv]
      ring
    obtain ⟨h0, h1⟩ := tmod_bound_of_nonneg (v := -v) (by omega) ha
    rw [hneg, abs_neg, abs_of_nonneg h0]
    exact h1

/-- The division check of the portable `overflowing_mul` branch: for a
representable non-zero `a`, dividing the wrapped product by `a` recovers `b`
exactly when the true product is representable. -/
lemma wrap_mul_tdiv (w : Nat) (hw : 0 < w) {a b : Int} (ha : inRange w a)
    (hne : a ≠ 0) :
    Int.tdiv (wrap w (a * b)) a = b ↔ inRange w (a * b) := by
  constructor
  · intro hdv
    have hid := Int.tdiv_add_tmod (wrap w (a * b)) a
    rw [hdv] at hid
    have hdvd : (2 : Int) ^ w ∣ wrap w (a * b) - a * b :=
      Int.dvd_of_emod_eq_zero
        (by rw [Int.sub_emod, wrap_emod, sub_self, Int.zero_emod])
    have habs : |wrap w (a * b) - a * b| < 2 ^ w := by
      have heq : wrap w (a * b) - a * b = Int.tmod (wrap w (a * b)) a := by
        linarith [hid]
      rw [heq]
      have h1 := abs_tmod_lt (wrap w (a * b)) a hne
      have h2 : |a| ≤ 2 ^ (w - 1) := by
        rcases ha with ⟨ha1, ha2⟩
        unfold minT at ha1
        unfold maxT at ha2
        rw [abs_le]
        exact ⟨ha1, by linarith⟩
      have h3 : (2 : Int) ^ (w - 1) < 2 ^ w := by
        have hn := two_pow_w_eq w hw
        have hh := half_pow_pos w
        linarith
      linarith
    have hz := Int.eq_zero_of_abs_lt_dvd hdvd habs
    have hwv : wrap w (a * b) = a * b := by linarith
    rw [← hwv]
    exact wrap_inRange w hw _
  · intro hr
    rw [wrap_eq_self hw hr, Int.mul_tdiv_cancel_left b hne]

/-- Claim C2: for representable operands, `overflowing_mul(a, b).value`
equals `wrapping_mul(a, b)`, and the portable fallback's check — when `a` is
non-zero, whether the wrapped product divided by `a` reproduces `b` — is
true exactly when the unbounded product lies outside `[min(T), max(T)]`. -/
theorem claim2_overflowing_mul_correct (w : Nat) (a b : Int) (hw : 0 < w)
    (ha : inRange w a) (_hb : inRange w b) :
    (overflowing_mul w a b).value = wrapping_mul w a b ∧
    ((overflowing_mul w a b).overflowed = true ↔
      a * b < minT w ∨ maxT w < a * b) := by
  refine ⟨rfl, ?_⟩
  unfold overflowing_mul
  simp only [Bool.and_eq_true, decide_eq_true_eq, ne_eq]
  rw [wrapping_mul_eq_wrap w hw]
  have hh := half_pow_pos w
  have hzero : inRange w 0 := by
    unfold inRange minT maxT
    generalize (2 : Int) ^ (w - 1) = h at hh ⊢
    omega
  constructor
  · rintro ⟨ha0, hdiv⟩
    by_contra hcon
    push_neg at hcon
    exact hdiv ((wrap_mul_tdiv w hw ha ha0).mpr ⟨hcon.1, hcon.2⟩)
  · intro hout
    have hnr : ¬ inRange w (a * b) := by
      rintro ⟨h1, h2⟩
      rcases hout with h | h
      · exact absurd h1 (not_le.mpr h)
      · exact absurd h2 (not_le.mpr h)
    have ha0 : a ≠ 0 := by
      rintro rfl
      rw [zero_mul] at hnr
      exact hnr hzero
    exact ⟨ha0, fun hdv => hnr ((wrap_mul_tdiv w hw ha ha0).mp hdv)⟩

theorem claim2_witness :
    0 < 8 ∧ inRange 8 16 ∧ inRange 8 16 ∧
    ((overflowing_mul 8 16 16).value = wrapping_mul 8 16 16 ∧
     ((overflowing_mul 8 16 16).overflowed = true ↔
       16 * 16 < minT 8 ∨ maxT 8 < 16 * 16)) :=
  ⟨by decide, by decide, by decide,
   claim2_overflowing_mul_correct 8 16 16 (by decide) (by decide) (by decide)⟩

/-- Claim C10 is violated by the code: at `T = int8_t`, `lhs = -1`,
`rhs = -128` (both representable, `lhs` non-zero) the portable branch of
`overflowing_mul` computes `value = wrapping_mul(-1, -128) = -128 = min(T)`
and then evaluates `value / lhs` with dividend `min(T)` and divisor `-1`,
the one signed division that overflows the type. -/
theorem claim10_min_div_neg_one_reached :
    inRange 8 (-1) ∧ inRange 8 (-128) ∧ (-1 : Int) ≠ 0 ∧
    wrapping_mul 8 (-1) (-128) = minT 8 ∧
    (overflowing_mul 8 (-1) (-128)).overflowed = true := by decide

end Flux
